import Mathlib

/-!
Verification of the influence-map core of `src/influence.py`.

The embedded functions translate the three core functions of the source:
`manhattan`, `colour_from_percentages` and `compute_influence`.  Points are
integer pairs (Python ints are unbounded integers); the floating-point
percentages of the source are modelled exactly as rationals, with Python's
`round` modelled by `round : ℚ → ℤ`.
-/

namespace Influence

/-- A board point, a `(col, row)` pair of integers. -/
abbrev Point : Type := ℤ × ℤ

/-- Manhattan distance between two `(col, row)` points
(`abs(p1[0] - p2[0]) + abs(p1[1] - p2[1])` in the source). -/
def manhattan (p1 p2 : Point) : ℤ :=
  |p1.1 - p2.1| + |p1.2 - p2.2|

/-- Minimum of `manhattan pt s` over the stones `s` of a list, `none` on the
empty list.  This embeds the source's guarded `min(manhattan(pt, s) for s in stones)`,
which is only evaluated when the stone list is nonempty. -/
def minDist (pt : Point) : List Point → Option ℤ
  | [] => none
  | s :: rest =>
      some (match minDist pt rest with
        | none => manhattan pt s
        | some m => min (manhattan pt s) m)

/-- The per-colour percentage computed inside `compute_influence`:
`1.0 / (d + 1) * 100.0` where `d` is the distance to the nearest stone of the
colour, and `0.0` when the colour has no stones. -/
def pctOf (stones : List Point) (pt : Point) : ℚ :=
  match minDist pt stones with
  | none => 0
  | some d => 1 / ((d : ℚ) + 1) * 100

/-- `colour_from_percentages` from the source: `red = int(round(white_pct * 2.55))`,
`green = int(round(black_pct * 2.55))`, `blue = 0`, each of red and green then
clamped by `max(0, min(255, ·))`. -/
def colour_from_percentages (black_pct white_pct : ℚ) : ℤ × ℤ × ℤ :=
  let red := round (white_pct * 2.55)
  let green := round (black_pct * 2.55)
  let blue : ℤ := 0
  (max 0 (min 255 red), max 0 (min 255 green), blue)

/-- The board state as `compute_influence` consumes it: the occupied points
partitioned by colour (the source extracts exactly these two lists from
`board.list_occupied_points()`). -/
structure Board where
  black_stones : List Point
  white_stones : List Point

/-- `compute_influence` from the source: for each `(col, row)` of the
`size × size` grid (row outer, col inner), the pair of percentages and the
blended colour.  The Python dict keyed by distinct points is embedded as the
association list produced in iteration order. -/
def compute_influence (board : Board) (size : ℕ) :
    List (Point × (ℚ × ℚ × (ℤ × ℤ × ℤ))) :=
  (List.range size).flatMap fun (row : ℕ) =>
    (List.range size).map fun (col : ℕ) =>
      let pt : Point := ((col : ℤ), (row : ℤ))
      let black_pct := pctOf board.black_stones pt
      let white_pct := pctOf board.white_stones pt
      let rgb := colour_from_percentages black_pct white_pct
      (pt, (black_pct, white_pct, rgb))

/-- The entry that `compute_influence` produces for the grid point `(col, row)`. -/
def influenceEntry (board : Board) (col row : ℕ) : Point × (ℚ × ℚ × (ℤ × ℤ × ℤ)) :=
  let pt : Point := ((col : ℤ), (row : ℤ))
  (pt, (pctOf board.black_stones pt, pctOf board.white_stones pt,
    colour_from_percentages (pctOf board.black_stones pt) (pctOf board.white_stones pt)))

/-- Exchange the two percentage components of an entry and the red and green
channels of its colour (used to state the colour-swap symmetry). -/
def swapEntry : Point × (ℚ × ℚ × (ℤ × ℤ × ℤ)) → Point × (ℚ × ℚ × (ℤ × ℤ × ℤ))
  | (pt, (bp, wp, (r, g, b))) => (pt, (wp, bp, (g, r, b)))

/-- Modelled from the spec: `clamp(x, lo, hi)` limits `x` to the interval
`[lo, hi]` (used only to compare the source's `max(0, min(255, x))` with the
spec's formula). -/
def clamp (x lo hi : ℤ) : ℤ :=
  max lo (min hi x)

theorem manhattan_nonneg (p q : Point) : 0 ≤ manhattan p q :=
  add_nonneg (abs_nonneg _) (abs_nonneg _)

theorem manhattan_self (p : Point) : manhattan p p = 0 := by
  simp [manhattan]

theorem minDist_eq_none_iff (pt : Point) (stones : List Point) :
    minDist pt stones = none ↔ stones = [] := by
  cases stones with
  | nil => simp [minDist]
  | cons s rest => simp [minDist]

theorem minDist_attained (pt : Point) (stones : List Point) :
    ∀ d : ℤ, minDist pt stones = some d → ∃ s ∈ stones, manhattan pt s = d := by
  induction stones with
  | nil => intro d h; simp [minDist] at h
  | cons s rest ih =>
    intro d h
    cases hrest : minDist pt rest with
    | none =>
      simp [minDist, hrest] at h
      exact ⟨s, List.mem_cons_self s rest, h⟩
    | some m =>
      simp [minDist, hrest] at h
      rcases le_total (manhattan pt s) m with hle | hle
      · exact ⟨s, List.mem_cons_self s rest, by rw [← h, min_eq_left hle]⟩
      · obtain ⟨t, ht, htd⟩ := ih m hrest
        exact ⟨t, List.mem_cons_of_mem s ht, by rw [← h, min_eq_right hle, htd]⟩

theorem minDist_le (pt : Point) (stones : List Point) :
    ∀ d : ℤ, minDist pt stones = some d → ∀ s ∈ stones, d ≤ manhattan pt s := by
  induction stones with
  | nil => intro d h; simp [minDist] at h
  | cons s rest ih =>
    intro d h t ht
    cases hrest : minDist pt rest with
    | none =>
      have hnil : rest = [] := (minDist_eq_none_iff pt rest).1 hrest
      subst hnil
      simp [minDist] at h
      simp at ht
      subst ht
      exact h.ge
    | some m =>
      simp [minDist, hrest] at h
      rcases List.mem_cons.1 ht with hts | htr
      · subst hts
        exact le_trans (le_of_eq h.symm) (min_le_left _ _)
      · exact le_trans (le_of_eq h.symm)
          (le_trans (min_le_right _ _) (ih m hrest t htr))

theorem minDist_nonneg (pt : Point) (stones : List Point) (d : ℤ)
    (h : minDist pt stones = some d) : 0 ≤ d := by
  obtain ⟨s, _, hsd⟩ := minDist_attained pt stones d h
  exact hsd ▸ manhattan_nonneg pt s

theorem minDist_of_mem_self (pt : Point) (stones : List Point) (hmem : pt ∈ stones) :
    minDist pt stones = some 0 := by
  cases hd : minDist pt stones with
  | none =>
    rw [minDist_eq_none_iff] at hd
    subst hd
    simp at hmem
  | some d =>
    have h1 : d ≤ 0 := manhattan_self pt ▸ minDist_le pt stones d hd pt hmem
    have h2 : 0 ≤ d := minDist_nonneg pt stones d hd
    rw [le_antisymm h1 h2]

theorem pctOf_nil (pt : Point) : pctOf [] pt = 0 := rfl

theorem pctOf_of_minDist (stones : List Point) (pt : Point) (d : ℤ)
    (h : minDist pt stones = some d) : pctOf stones pt = 1 / ((d : ℚ) + 1) * 100 := by
  simp [pctOf, h]

theorem pct_formula_nonneg (d : ℤ) (h : 0 ≤ d) : (0 : ℚ) ≤ 1 / ((d : ℚ) + 1) * 100 := by
  have hd : (0 : ℚ) ≤ (d : ℚ) := Int.cast_nonneg.2 h
  positivity

theorem pct_formula_le_100 (d : ℤ) (h : 0 ≤ d) : 1 / ((d : ℚ) + 1) * 100 ≤ 100 := by
  have hd : (0 : ℚ) ≤ (d : ℚ) := Int.cast_nonneg.2 h
  have h1 : 1 / ((d : ℚ) + 1) ≤ 1 := by
    rw [div_le_one (by linarith)]
    linarith
  calc 1 / ((d : ℚ) + 1) * 100 ≤ 1 * 100 :=
        mul_le_mul_of_nonneg_right h1 (by norm_num)
    _ = 100 := one_mul 100

theorem pct_formula_anti (d d' : ℤ) (h0 : 0 ≤ d') (hle : d' ≤ d) :
    1 / ((d : ℚ) + 1) * 100 ≤ 1 / ((d' : ℚ) + 1) * 100 := by
  have hd' : (0 : ℚ) ≤ (d' : ℚ) := Int.cast_nonneg.2 h0
  have hdd : ((d' : ℚ)) ≤ (d : ℚ) := Int.cast_le.2 hle
  have h1 : 1 / ((d : ℚ) + 1) ≤ 1 / ((d' : ℚ) + 1) :=
    one_div_le_one_div_of_le (by linarith) (by linarith)
  exact mul_le_mul_of_nonneg_right h1 (by norm_num)

theorem pctOf_nonneg (stones : List Point) (pt : Point) : 0 ≤ pctOf stones pt := by
  cases hd : minDist pt stones with
  | none => simp [pctOf, hd]
  | some d =>
    rw [pctOf_of_minDist stones pt d hd]
    exact pct_formula_nonneg d (minDist_nonneg pt stones d hd)

theorem pctOf_le_100 (stones : List Point) (pt : Point) : pctOf stones pt ≤ 100 := by
  cases hd : minDist pt stones with
  | none => simp [pctOf, hd]
  | some d =>
    rw [pctOf_of_minDist stones pt d hd]
    exact pct_formula_le_100 d (minDist_nonneg pt stones d hd)

theorem pctOf_of_mem_self (stones : List Point) (pt : Point) (hmem : pt ∈ stones) :
    pctOf stones pt = 100 := by
  rw [pctOf_of_minDist stones pt 0 (minDist_of_mem_self pt stones hmem)]
  norm_num

theorem mem_compute_influence (board : Board) (size : ℕ)
    (e : Point × (ℚ × ℚ × (ℤ × ℤ × ℤ))) :
    e ∈ compute_influence board size ↔
      ∃ col row : ℕ, col < size ∧ row < size ∧ e = influenceEntry board col row := by
  simp only [compute_influence, influenceEntry, List.mem_flatMap, List.mem_map,
    List.mem_range]
  constructor
  · rintro ⟨row, hrow, col, hcol, rfl⟩
    exact ⟨col, row, hcol, hrow, rfl⟩
  · rintro ⟨col, row, hcol, hrow, rfl⟩
    exact ⟨row, hrow, col, hcol, rfl⟩

theorem compute_influence_length (board : Board) (size : ℕ) :
    (compute_influence board size).length = size * size := by
  simp [compute_influence, List.flatMap_def, List.map_map, Function.comp_def,
    List.map_const', List.sum_const_nat]

theorem compute_influence_keys (board : Board) (size : ℕ) :
    (compute_influence board size).map Prod.fst =
      (List.range size).flatMap fun (row : ℕ) =>
        (List.range size).map fun (col : ℕ) => (((col : ℤ), (row : ℤ)) : Point) := by
  simp [compute_influence, List.map_flatMap, List.map_map, Function.comp_def]

theorem compute_influence_keys_nodup (board : Board) (size : ℕ) :
    ((compute_influence board size).map Prod.fst).Nodup := by
  rw [compute_influence_keys, List.nodup_flatMap]
  constructor
  · intro row _
    refine List.Nodup.map ?_ (List.nodup_range size)
    intro a b hab
    simpa using hab
  · refine (List.pairwise_lt_range size).imp ?_
    intro a b hab x hxa hxb
    simp only [List.mem_map, List.mem_range] at hxa hxb
    obtain ⟨ca, _, hca⟩ := hxa
    obtain ⟨cb, _, hcb⟩ := hxb
    have h2 : (((ca : ℤ), (a : ℤ)) : Point) = ((cb : ℤ), (b : ℤ)) := hca.trans hcb.symm
    have h3 : (a : ℤ) = (b : ℤ) := congrArg Prod.snd h2
    exact absurd (Nat.cast_injective h3) hab.ne

theorem grid_mem_compute_influence_keys (board : Board) (size : ℕ) (col row : ℕ)
    (hcol : col < size) (hrow : row < size) :
    (((col : ℤ), (row : ℤ)) : Point) ∈ (compute_influence board size).map Prod.fst := by
  rw [compute_influence_keys]
  simp only [List.mem_flatMap, List.mem_map, List.mem_range]
  exact ⟨row, hrow, col, hcol, rfl⟩

theorem colour_green_100 (wp : ℚ) : (colour_from_percentages 100 wp).2.1 = 255 := by
  norm_num [colour_from_percentages, round_eq]

theorem pctOf_characterization (stones : List Point) (pt : Point) (hne : stones ≠ []) :
    ∃ d : ℤ, (∃ s ∈ stones, manhattan pt s = d) ∧ (∀ s ∈ stones, d ≤ manhattan pt s) ∧
      pctOf stones pt = 100 / ((d : ℚ) + 1) := by
  cases hd : minDist pt stones with
  | none => exact absurd ((minDist_eq_none_iff pt stones).1 hd) hne
  | some d =>
    refine ⟨d, minDist_attained pt stones d hd, minDist_le pt stones d hd, ?_⟩
    rw [pctOf_of_minDist stones pt d hd, one_div, inv_mul_eq_div]

theorem compute_influence_size1_eval :
    compute_influence ⟨[((0 : ℤ), (0 : ℤ))], []⟩ 1 =
      [(((0 : ℤ), (0 : ℤ)), ((100 : ℚ), (0 : ℚ), ((0 : ℤ), (255 : ℤ), (0 : ℤ))))] := by
  norm_num [compute_influence, pctOf, minDist, manhattan, colour_from_percentages,
    round_eq, List.range_succ]

theorem compute_influence_empty1_eval :
    compute_influence ⟨[], []⟩ 1 =
      [(((0 : ℤ), (0 : ℤ)), ((0 : ℚ), (0 : ℚ), ((0 : ℤ), (0 : ℤ), (0 : ℤ))))] := by
  norm_num [compute_influence, pctOf, minDist, manhattan, colour_from_percentages,
    round_eq, List.range_succ]

/-- C2: for every pair of percentages, `colour_from_percentages` returns the RGB
triple with red = clamp(round(pctB * 2.55), 0, 255), green =
clamp(round(pctA * 2.55), 0, 255) and blue = 0; it is a pure function of its
two arguments (colour A is shown as green, colour B as red). -/
theorem C2_blend_formula (pctA pctB : ℚ) :
    colour_from_percentages pctA pctB =
      (clamp (round (pctB * 2.55)) 0 255, clamp (round (pctA * 2.55)) 0 255, 0) :=
  rfl

/-- C5: every entry of the influence map has both percentages in the closed
interval [0, 100]. -/
theorem C5_pct_bounds (board : Board) (size : ℕ)
    (e : Point × (ℚ × ℚ × (ℤ × ℤ × ℤ))) (he : e ∈ compute_influence board size) :
    0 ≤ e.2.1 ∧ e.2.1 ≤ 100 ∧ 0 ≤ e.2.2.1 ∧ e.2.2.1 ≤ 100 := by
  obtain ⟨col, row, -, -, rfl⟩ := (mem_compute_influence board size e).1 he
  exact ⟨pctOf_nonneg _ _, pctOf_le_100 _ _, pctOf_nonneg _ _, pctOf_le_100 _ _⟩

theorem C5_pct_bounds_witness :
    ((((0 : ℤ), (0 : ℤ)), ((100 : ℚ), (0 : ℚ), ((0 : ℤ), (255 : ℤ), (0 : ℤ)))) ∈
        compute_influence ⟨[((0 : ℤ), (0 : ℤ))], []⟩ 1) ∧
      ((0 : ℚ) ≤ 100 ∧ (100 : ℚ) ≤ 100 ∧ (0 : ℚ) ≤ 0 ∧ (0 : ℚ) ≤ 100) := by
  have hmem : (((0 : ℤ), (0 : ℤ)), ((100 : ℚ), (0 : ℚ), ((0 : ℤ), (255 : ℤ), (0 : ℤ)))) ∈
      compute_influence ⟨[((0 : ℤ), (0 : ℤ))], []⟩ 1 := by
    rw [compute_influence_size1_eval]
    exact List.mem_singleton.2 rfl
  exact ⟨hmem, C5_pct_bounds ⟨[((0 : ℤ), (0 : ℤ))], []⟩ 1 _ hmem⟩

/-- C7: an empty stone set for a colour is not an error: on every board, each
entry of the influence map gives that colour the percentage 0 when its stone
set is empty, and when both stone sets are empty the blended colour of every
entry is exactly (0, 0, 0). -/
theorem C7_empty_sets_zero (board : Board) (size : ℕ)
    (e : Point × (ℚ × ℚ × (ℤ × ℤ × ℤ))) (he : e ∈ compute_influence board size) :
    (board.black_stones = [] → e.2.1 = 0) ∧
    (board.white_stones = [] → e.2.2.1 = 0) ∧
    (board.black_stones = [] → board.white_stones = [] → e.2.2.2 = (0, 0, 0)) := by
  obtain ⟨col, row, -, -, rfl⟩ := (mem_compute_influence _ _ e).1 he
  refine ⟨?_, ?_, ?_⟩
  · intro hb
    show pctOf board.black_stones _ = 0
    rw [hb]
    exact pctOf_nil _
  · intro hw
    show pctOf board.white_stones _ = 0
    rw [hw]
    exact pctOf_nil _
  · intro hb hw
    show colour_from_percentages (pctOf board.black_stones _)
      (pctOf board.white_stones _) = (0, 0, 0)
    rw [hb, hw]
    norm_num [pctOf_nil, colour_from_percentages, round_eq]

theorem C7_empty_sets_zero_witness :
    ((((0 : ℤ), (0 : ℤ)), ((100 : ℚ), (0 : ℚ), ((0 : ℤ), (255 : ℤ), (0 : ℤ)))) ∈
        compute_influence ⟨[((0 : ℤ), (0 : ℤ))], []⟩ 1) ∧
      (([((0 : ℤ), (0 : ℤ))] = ([] : List Point) → (100 : ℚ) = 0) ∧
        (([] : List Point) = [] → (0 : ℚ) = 0) ∧
        ([((0 : ℤ), (0 : ℤ))] = ([] : List Point) → ([] : List Point) = [] →
          ((0 : ℤ), (255 : ℤ), (0 : ℤ)) = ((0 : ℤ), (0 : ℤ), (0 : ℤ)))) := by
  have hmem : (((0 : ℤ), (0 : ℤ)), ((100 : ℚ), (0 : ℚ), ((0 : ℤ), (255 : ℤ), (0 : ℤ)))) ∈
      compute_influence ⟨[((0 : ℤ), (0 : ℤ))], []⟩ 1 := by
    rw [compute_influence_size1_eval]
    exact List.mem_singleton.2 rfl
  exact ⟨hmem, C7_empty_sets_zero ⟨[((0 : ℤ), (0 : ℤ))], []⟩ 1 _ hmem⟩

/-- C8: for a fixed stone set, a point whose distance to the nearest stone is
at least that of another point gets at most the percentage of the other point
(increasing distance never increases the percentage). -/
theorem C8_monotone_distance (stones : List Point) (p q : Point) (dp dq : ℤ)
    (hp : minDist p stones = some dp) (hq : minDist q stones = some dq)
    (hge : dq ≤ dp) : pctOf stones p ≤ pctOf stones q := by
  rw [pctOf_of_minDist _ _ _ hp, pctOf_of_minDist _ _ _ hq]
  exact pct_formula_anti dp dq (minDist_nonneg q stones dq hq) hge

theorem C8_monotone_distance_witness :
    (minDist ((1 : ℤ), (0 : ℤ)) [((0 : ℤ), (0 : ℤ))] = some 1 ∧
      minDist ((0 : ℤ), (0 : ℤ)) [((0 : ℤ), (0 : ℤ))] = some 0 ∧ (0 : ℤ) ≤ 1) ∧
      pctOf [((0 : ℤ), (0 : ℤ))] ((1 : ℤ), (0 : ℤ)) ≤
        pctOf [((0 : ℤ), (0 : ℤ))] ((0 : ℤ), (0 : ℤ)) := by
  have h1 : minDist ((1 : ℤ), (0 : ℤ)) [((0 : ℤ), (0 : ℤ))] = some 1 := by
    norm_num [minDist, manhattan]
  have h2 : minDist ((0 : ℤ), (0 : ℤ)) [((0 : ℤ), (0 : ℤ))] = some 0 := by
    norm_num [minDist, manhattan]
  exact ⟨⟨h1, h2, by norm_num⟩,
    C8_monotone_distance [((0 : ℤ), (0 : ℤ))] _ _ 1 0 h1 h2 (by norm_num)⟩

/-- C9: swapping the two stone sets of the board exchanges the two percentage
components of every entry and swaps the red and green channels of the blended
colour, while every blue channel is 0. -/
theorem C9_swap_symmetry (black white : List Point) (size : ℕ) :
    compute_influence ⟨white, black⟩ size =
      (compute_influence ⟨black, white⟩ size).map swapEntry ∧
    ((compute_influence ⟨white, black⟩ size).map fun e => e.2.2.2.2.2) =
      List.replicate (size * size) 0 := by
  constructor
  · simp only [compute_influence, List.map_flatMap, List.map_map]
    refine congrArg (List.flatMap (List.range size)) (funext fun row => ?_)
    exact List.map_congr_left fun col _ => rfl
  · rw [List.eq_replicate_iff]
    constructor
    · rw [List.length_map, compute_influence_length]
    · intro b hb
      simp only [List.mem_map] at hb
      obtain ⟨e, he, rfl⟩ := hb
      obtain ⟨col, row, -, -, rfl⟩ := (mem_compute_influence _ _ e).1 he
      rfl

/-- C10: adding a stone to a stone set never decreases that colour percentage
at any point. -/
theorem C10_add_stone_monotone (stones : List Point) (s : Point) (pt : Point) :
    pctOf stones pt ≤ pctOf (s :: stones) pt := by
  cases hrest : minDist pt stones with
  | none =>
    have h0 : pctOf stones pt = 0 := by simp [pctOf, hrest]
    rw [h0]
    exact pctOf_nonneg _ _
  | some d =>
    have hcons : minDist pt (s :: stones) = some (min (manhattan pt s) d) := by
      simp [minDist, hrest]
    rw [pctOf_of_minDist _ _ _ hrest, pctOf_of_minDist _ _ _ hcons]
    exact pct_formula_anti d (min (manhattan pt s) d)
      (le_min (manhattan_nonneg pt s) (minDist_nonneg pt stones d hrest))
      (min_le_right _ _)

/-- C1: for every board and size, the influence map carries, at each grid
point, the percentage 0 for a colour with no stones, and otherwise
100 / (d + 1) where d is the minimum Manhattan distance (an exact integer)
to a stone of that colour, together with the blend of the two percentages. -/
theorem C1_pct_formula (board : Board) (size : ℕ) (hsize : 1 ≤ size)
    (col row : ℕ) (hcol : col < size) (hrow : row < size) :
    ∃ bp wp rgb,
      ((((col : ℤ), (row : ℤ)) : Point), (bp, wp, rgb)) ∈ compute_influence board size ∧
      (board.black_stones = [] → bp = 0) ∧
      (board.black_stones ≠ [] → ∃ dA : ℤ,
        (∃ s ∈ board.black_stones, manhattan ((col : ℤ), (row : ℤ)) s = dA) ∧
        (∀ s ∈ board.black_stones, dA ≤ manhattan ((col : ℤ), (row : ℤ)) s) ∧
        bp = 100 / ((dA : ℚ) + 1)) ∧
      (board.white_stones = [] → wp = 0) ∧
      (board.white_stones ≠ [] → ∃ dB : ℤ,
        (∃ s ∈ board.white_stones, manhattan ((col : ℤ), (row : ℤ)) s = dB) ∧
        (∀ s ∈ board.white_stones, dB ≤ manhattan ((col : ℤ), (row : ℤ)) s) ∧
        wp = 100 / ((dB : ℚ) + 1)) ∧
      rgb = colour_from_percentages bp wp := by
  refine ⟨pctOf board.black_stones ((col : ℤ), (row : ℤ)),
    pctOf board.white_stones ((col : ℤ), (row : ℤ)), _,
    (mem_compute_influence board size _).2 ⟨col, row, hcol, hrow, rfl⟩,
    ?_, ?_, ?_, ?_, rfl⟩
  · intro h
    rw [h]
    exact pctOf_nil _
  · exact pctOf_characterization board.black_stones _
  · intro h
    rw [h]
    exact pctOf_nil _
  · exact pctOf_characterization board.white_stones _

theorem C1_pct_formula_witness :
    (1 ≤ 1 ∧ 0 < 1 ∧ 0 < 1) ∧
      (∃ bp wp rgb,
        ((((0 : ℤ), (0 : ℤ)) : Point), (bp, wp, rgb)) ∈
          compute_influence ⟨[((0 : ℤ), (0 : ℤ))], []⟩ 1 ∧
        ([((0 : ℤ), (0 : ℤ))] = ([] : List Point) → bp = 0) ∧
        ([((0 : ℤ), (0 : ℤ))] ≠ ([] : List Point) → ∃ dA : ℤ,
          (∃ s ∈ [((0 : ℤ), (0 : ℤ))], manhattan ((0 : ℤ), (0 : ℤ)) s = dA) ∧
          (∀ s ∈ [((0 : ℤ), (0 : ℤ))], dA ≤ manhattan ((0 : ℤ), (0 : ℤ)) s) ∧
          bp = 100 / ((dA : ℚ) + 1)) ∧
        (([] : List Point) = [] → wp = 0) ∧
        (([] : List Point) ≠ [] → ∃ dB : ℤ,
          (∃ s ∈ ([] : List Point), manhattan ((0 : ℤ), (0 : ℤ)) s = dB) ∧
          (∀ s ∈ ([] : List Point), dB ≤ manhattan ((0 : ℤ), (0 : ℤ)) s) ∧
          wp = 100 / ((dB : ℚ) + 1)) ∧
        rgb = colour_from_percentages bp wp) :=
  ⟨⟨le_refl 1, Nat.zero_lt_one, Nat.zero_lt_one⟩,
    C1_pct_formula ⟨[((0 : ℤ), (0 : ℤ))], []⟩ 1 (le_refl 1) 0 0 Nat.zero_lt_one
      Nat.zero_lt_one⟩

/-- C3 (counterexample): on the board of size 3 with a single stone of colour A
at (0, 0), the claimed values pctA((2,0)) = 33.33 and pctA((2,2)) = 25 do not
both hold of the computed influence map. -/
theorem C3_scenario_counterexample :
    ¬ ∀ e ∈ compute_influence ⟨[((0 : ℤ), (0 : ℤ))], []⟩ 3,
        (e.1 = ((2 : ℤ), (0 : ℤ)) → e.2.1 = (33.33 : ℚ)) ∧
        (e.1 = ((2 : ℤ), (2 : ℤ)) → e.2.1 = 25) := by
  intro h
  have hmem : ((((2 : ℤ), (2 : ℤ)) : Point), ((20 : ℚ), (0 : ℚ), ((0 : ℤ), (51 : ℤ), (0 : ℤ)))) ∈
      compute_influence ⟨[((0 : ℤ), (0 : ℤ))], []⟩ 3 := by
    norm_num [compute_influence, pctOf, minDist, manhattan, colour_from_percentages,
      round_eq, List.range_succ]
  have h20 := (h _ hmem).2 rfl
  norm_num at h20

/-- C3 (amended): for the board with size 3, one colour-A stone at (0,0) and no
colour-B stones, the computed influence map is exactly the nine-entry map with
pctA((0,0)) = 100, pctA((1,0)) = 50, pctA((2,0)) = 100/3 (approximately 33.33),
pctA((2,2)) = 20, pctB = 0 everywhere, and blended colour (0, 255, 0)
at (0, 0). -/
theorem C3_scenario_amended :
    compute_influence ⟨[((0 : ℤ), (0 : ℤ))], []⟩ 3 =
      [((((0 : ℤ), (0 : ℤ)) : Point), ((100 : ℚ), (0 : ℚ), ((0 : ℤ), (255 : ℤ), (0 : ℤ)))),
       ((((1 : ℤ), (0 : ℤ)) : Point), ((50 : ℚ), (0 : ℚ), ((0 : ℤ), (128 : ℤ), (0 : ℤ)))),
       ((((2 : ℤ), (0 : ℤ)) : Point), ((100 / 3 : ℚ), (0 : ℚ), ((0 : ℤ), (85 : ℤ), (0 : ℤ)))),
       ((((0 : ℤ), (1 : ℤ)) : Point), ((50 : ℚ), (0 : ℚ), ((0 : ℤ), (128 : ℤ), (0 : ℤ)))),
       ((((1 : ℤ), (1 : ℤ)) : Point), ((100 / 3 : ℚ), (0 : ℚ), ((0 : ℤ), (85 : ℤ), (0 : ℤ)))),
       ((((2 : ℤ), (1 : ℤ)) : Point), ((25 : ℚ), (0 : ℚ), ((0 : ℤ), (64 : ℤ), (0 : ℤ)))),
       ((((0 : ℤ), (2 : ℤ)) : Point), ((100 / 3 : ℚ), (0 : ℚ), ((0 : ℤ), (85 : ℤ), (0 : ℤ)))),
       ((((1 : ℤ), (2 : ℤ)) : Point), ((25 : ℚ), (0 : ℚ), ((0 : ℤ), (64 : ℤ), (0 : ℤ)))),
       ((((2 : ℤ), (2 : ℤ)) : Point), ((20 : ℚ), (0 : ℚ), ((0 : ℤ), (51 : ℤ), (0 : ℤ))))] := by
  norm_num [compute_influence, pctOf, minDist, manhattan, colour_from_percentages,
    round_eq, List.range_succ]

/-- C4: the influence map has exactly one entry per grid point: its length is
size * size, its keys are pairwise distinct, and every grid point occurs among
its keys, whatever the stone sets are. -/
theorem C4_one_entry_per_point (board : Board) (size : ℕ) (hsize : 1 ≤ size)
    (col row : ℕ) (hcol : col < size) (hrow : row < size) :
    (compute_influence board size).length = size * size ∧
    ((compute_influence board size).map Prod.fst).Nodup ∧
    (((col : ℤ), (row : ℤ)) : Point) ∈ (compute_influence board size).map Prod.fst :=
  ⟨compute_influence_length board size, compute_influence_keys_nodup board size,
    grid_mem_compute_influence_keys board size col row hcol hrow⟩

theorem C4_one_entry_per_point_witness :
    (1 ≤ 1 ∧ 0 < 1 ∧ 0 < 1) ∧
      ((compute_influence ⟨[], []⟩ 1).length = 1 * 1 ∧
        ((compute_influence ⟨[], []⟩ 1).map Prod.fst).Nodup ∧
        (((0 : ℤ), (0 : ℤ)) : Point) ∈ (compute_influence ⟨[], []⟩ 1).map Prod.fst) :=
  ⟨⟨le_refl 1, Nat.zero_lt_one, Nat.zero_lt_one⟩,
    C4_one_entry_per_point ⟨[], []⟩ 1 (le_refl 1) 0 0 Nat.zero_lt_one Nat.zero_lt_one⟩

/-- C6: at a grid point carrying a stone of colour A and no stone of colour B,
the influence map records pctA = 100 exactly and a blended colour whose green
channel is 255. -/
theorem C6_stone_full_influence (board : Board) (size : ℕ) (col row : ℕ)
    (hcol : col < size) (hrow : row < size)
    (hb : (((col : ℤ), (row : ℤ)) : Point) ∈ board.black_stones)
    (hw : (((col : ℤ), (row : ℤ)) : Point) ∉ board.white_stones)
    (e : Point × (ℚ × ℚ × (ℤ × ℤ × ℤ))) (he : e ∈ compute_influence board size)
    (hpt : e.1 = ((col : ℤ), (row : ℤ))) :
    e.2.1 = 100 ∧ e.2.2.2.2.1 = 255 := by
  obtain ⟨c, r, -, -, rfl⟩ := (mem_compute_influence _ _ e).1 he
  have hpt' : (((c : ℤ), (r : ℤ)) : Point) = ((col : ℤ), (row : ℤ)) := hpt
  show pctOf board.black_stones ((c : ℤ), (r : ℤ)) = 100 ∧
    (colour_from_percentages (pctOf board.black_stones ((c : ℤ), (r : ℤ)))
      (pctOf board.white_stones ((c : ℤ), (r : ℤ)))).2.1 = 255
  rw [hpt']
  have h100 : pctOf board.black_stones ((col : ℤ), (row : ℤ)) = 100 :=
    pctOf_of_mem_self _ _ hb
  rw [h100]
  exact ⟨rfl, colour_green_100 _⟩

theorem C6_stone_full_influence_witness :
    (0 < 1 ∧ 0 < 1 ∧
      ((((0 : ℤ), (0 : ℤ)) : Point) ∈ [((0 : ℤ), (0 : ℤ))]) ∧
      ((((0 : ℤ), (0 : ℤ)) : Point) ∉ ([] : List Point)) ∧
      ((((0 : ℤ), (0 : ℤ)), ((100 : ℚ), (0 : ℚ), ((0 : ℤ), (255 : ℤ), (0 : ℤ)))) ∈
        compute_influence ⟨[((0 : ℤ), (0 : ℤ))], []⟩ 1)) ∧
      ((100 : ℚ) = 100 ∧ (255 : ℤ) = 255) := by
  have hmem : (((0 : ℤ), (0 : ℤ)), ((100 : ℚ), (0 : ℚ), ((0 : ℤ), (255 : ℤ), (0 : ℤ)))) ∈
      compute_influence ⟨[((0 : ℤ), (0 : ℤ))], []⟩ 1 := by
    rw [compute_influence_size1_eval]
    exact List.mem_singleton.2 rfl
  have hb : (((0 : ℤ), (0 : ℤ)) : Point) ∈ [((0 : ℤ), (0 : ℤ))] :=
    List.mem_singleton.2 rfl
  have hw : (((0 : ℤ), (0 : ℤ)) : Point) ∉ ([] : List Point) := List.not_mem_nil _
  exact ⟨⟨Nat.zero_lt_one, Nat.zero_lt_one, hb, hw, hmem⟩,
    C6_stone_full_influence ⟨[((0 : ℤ), (0 : ℤ))], []⟩ 1 0 0 Nat.zero_lt_one
      Nat.zero_lt_one hb hw _ hmem rfl⟩

end Influence
